import Mathlib

/-!
Shallow embedding of the `grove` immutable tree library (`src/lib.rs`) and
verification of its specification.

The Rust source stores nodes in a `Vec<INode<T>>`; we model the vector as a
`List`. The only fallible operation is `ITree::add_node` on a non-empty tree
with an out-of-range parent index: there `self.nodes.index_mut(x)` panics
before any mutation happens. We model the panic as `none`, so `add_node`
returns `Option (ITree T × NodeId)`; on `some` the returned tree is the
mutated state and the `NodeId` is the Rust return value.
-/

namespace Grove

/-- Model of `struct NodeId(usize)`: an index into the owning tree. -/
structure NodeId where
  id : Nat
deriving DecidableEq, Repr

/-- Model of `struct INode<T> { value, parent, children }`. -/
structure INode (T : Type) where
  value : T
  parent : Option NodeId
  children : List NodeId
deriving DecidableEq, Repr

/-- Model of `struct ITree<T> { nodes: Vec<INode<T>> }`. -/
structure ITree (T : Type) where
  nodes : List (INode T)
deriving DecidableEq, Repr

variable {T : Type}

/-- Model of `INode::new`: fresh node with the given value and parent and no
children. -/
def INode.new (value : T) (parent : Option NodeId) : INode T :=
  ⟨value, parent, []⟩

/-- Model of `INode::insert`: push a child id at the end of `children`. -/
def INode.insert (n : INode T) (child : NodeId) : INode T :=
  { n with children := n.children ++ [child] }

/-- Model of `ITree::new`: the empty tree. -/
def ITree.new : ITree T :=
  ⟨[]⟩

/-- Model of `ITree::root`: `self.nodes.get(0)`. -/
def ITree.root (t : ITree T) : Option (INode T) :=
  t.nodes[0]?

/-- Model of `ITree::get`: `self.nodes.get(x)` for `NodeId(x)`. -/
def ITree.get (t : ITree T) (node : NodeId) : Option (INode T) :=
  t.nodes[node.id]?

/-- Model of `ITree::add_node`. The empty tree discards the parent argument
and creates the root. Otherwise the parent's children list is updated via
`index_mut` (a panic — modelled as `none` — when the index is out of range)
and then the new node is pushed. -/
def ITree.add_node (t : ITree T) (node : NodeId) (value : T) :
    Option (ITree T × NodeId) :=
  if t.nodes.isEmpty then
    some (⟨[INode.new value none]⟩, ⟨0⟩)
  else
    let index : NodeId := ⟨t.nodes.length⟩
    match t.nodes[node.id]? with
    | some parentNode =>
        some (⟨(t.nodes.set node.id (parentNode.insert index)) ++
                 [INode.new value (some node)]⟩, index)
    | none => none

/-- Run a list of `add_node` calls in order, propagating a panic as `none`. -/
def ITree.runOps (t : ITree T) : List (NodeId × T) → Option (ITree T)
  | [] => some t
  | op :: ops =>
    match t.add_node op.1 op.2 with
    | some (t', _) => t'.runOps ops
    | none => none

/-- Run a list of `add_node` calls, also collecting the returned `NodeId`s in
call order. -/
def ITree.runTrace (t : ITree T) : List (NodeId × T) →
    Option (ITree T × List NodeId)
  | [] => some (t, [])
  | op :: ops =>
    match t.add_node op.1 op.2 with
    | some (t', i) =>
      match t'.runTrace ops with
      | some (t'', ids) => some (t'', i :: ids)
      | none => none
    | none => none

/-- Total number of occurrences of the index `c` across all children lists of
the tree. -/
def ITree.childCount (t : ITree T) (c : Nat) : Nat :=
  (t.nodes.map (fun n => (n.children.map NodeId.id).count c)).sum

/-- One step of the parent relation: node `i` exists and its parent field is
`NodeId j`. -/
def ITree.parentRel (t : ITree T) (i j : Nat) : Prop :=
  ∃ n, t.get ⟨i⟩ = some n ∧ n.parent = some ⟨j⟩

/-- Children list stored at index `q`, or `[]` when the index is absent. -/
def ITree.childrenAt (t : ITree T) (q : NodeId) : List NodeId :=
  ((t.nodes[q.id]?).map INode.children).getD []

/-- The children that a run of `add_node` calls will append to node `p`, in
call order, when the calls start on a tree of length `L`: the `k`-th call
creates node `L + k` and appends it to its parent argument's children. -/
def pendingChildren (L : Nat) : List (NodeId × T) → NodeId → List NodeId
  | [], _ => []
  | op :: ops, p =>
    if op.1 = p then ⟨L⟩ :: pendingChildren (L + 1) ops p
    else pendingChildren (L + 1) ops p

/-- Structural invariant of trees built by `add_node`: the root has no parent,
every other node's parent has a strictly smaller index, children point back to
their parent and have larger indices, and every non-root index occurs exactly
once among all children lists (the root and out-of-range indices never). -/
structure ITree.Inv (t : ITree T) : Prop where
  root_parent : ∀ n : INode T, t.nodes[0]? = some n → n.parent = none
  parent_lt : ∀ (i : Nat) (n : INode T), t.nodes[i]? = some n → 0 < i →
    ∃ j, j < i ∧ n.parent = some ⟨j⟩
  child_link : ∀ (p : Nat) (n : INode T), t.nodes[p]? = some n →
    ∀ c ∈ n.children,
      p < c.id ∧ ∃ m, t.nodes[c.id]? = some m ∧ m.parent = some ⟨p⟩
  count_one : ∀ i, 0 < i → i < t.nodes.length → t.childCount i = 1
  count_zero : ∀ i, t.nodes.length ≤ i → t.childCount i = 0
  count_root : t.childCount 0 = 0

/-! Helper lemmas characterizing one `add_node` step. -/

lemma add_node_empty_eq (t : ITree T) (p : NodeId) (v : T) (h : t.nodes = []) :
    t.add_node p v = some (⟨[INode.new v none]⟩, ⟨0⟩) := by
  simp [ITree.add_node, h]

lemma add_node_oob_eq (t : ITree T) (p : NodeId) (v : T) (hne : t.nodes ≠ [])
    (hp : t.nodes.length ≤ p.id) : t.add_node p v = none := by
  simp [ITree.add_node, hne, List.getElem?_eq_none hp]

lemma add_node_nonempty_eq (t : ITree T) (p : NodeId) (v : T)
    (hp : p.id < t.nodes.length) :
    t.add_node p v =
      some (⟨(t.nodes.set p.id
                ((t.nodes.get ⟨p.id, hp⟩).insert ⟨t.nodes.length⟩)) ++
              [INode.new v (some p)]⟩, ⟨t.nodes.length⟩) := by
  have hne : t.nodes ≠ [] := by
    intro h
    rw [h] at hp
    simp at hp
  simp [ITree.add_node, hne, List.getElem?_eq_getElem hp, List.get_eq_getElem]

/-- Inversion of a successful `add_node`. -/
lemma add_node_some_cases {t t' : ITree T} {p nid : NodeId} {v : T}
    (h : t.add_node p v = some (t', nid)) :
    (t.nodes = [] ∧ t' = ⟨[INode.new v none]⟩ ∧ nid = ⟨0⟩) ∨
    (∃ hp : p.id < t.nodes.length,
      t' = ⟨(t.nodes.set p.id
               ((t.nodes.get ⟨p.id, hp⟩).insert ⟨t.nodes.length⟩)) ++
             [INode.new v (some p)]⟩ ∧
      nid = ⟨t.nodes.length⟩) := by
  by_cases he : t.nodes = []
  · left
    rw [add_node_empty_eq t p v he] at h
    injection h with h1
    exact ⟨he, (congrArg Prod.fst h1).symm, (congrArg Prod.snd h1).symm⟩
  · by_cases hp : p.id < t.nodes.length
    · right
      refine ⟨hp, ?_⟩
      rw [add_node_nonempty_eq t p v hp] at h
      injection h with h1
      exact ⟨(congrArg Prod.fst h1).symm, (congrArg Prod.snd h1).symm⟩
    · rw [add_node_oob_eq t p v he (Nat.le_of_not_lt hp)] at h
      exact absurd h (by simp)

/-- On a non-empty tree, a successful `add_node` appends one node; lookup in
the new tree is the old lookup except at the parent (one child appended) and
at the fresh index (the new node). -/
lemma add_node_get_eq {t t' : ITree T} {p nid : NodeId} {v : T}
    (hne : t.nodes ≠ []) (h : t.add_node p v = some (t', nid)) (i : Nat) :
    ∃ hp : p.id < t.nodes.length,
      nid = ⟨t.nodes.length⟩ ∧
      t'.nodes.length = t.nodes.length + 1 ∧
      t'.nodes[i]? =
        (if i = t.nodes.length then some (INode.new v (some p))
         else if i = p.id then
           some ((t.nodes.get ⟨p.id, hp⟩).insert ⟨t.nodes.length⟩)
         else t.nodes[i]?) := by
  rcases add_node_some_cases h with ⟨he, _⟩ | ⟨hp, ht', hnid⟩
  · exact absurd he hne
  · refine ⟨hp, hnid, ?_, ?_⟩
    · rw [ht']
      simp
    · rw [ht']
      by_cases hlen : i = t.nodes.length
      · subst hlen
        rw [if_pos rfl, List.getElem?_append_right (by simp)]
        simp
      · rw [if_neg hlen]
        by_cases hip : i = p.id
        · subst hip
          rw [if_pos rfl]
          rw [List.getElem?_append_left (by simp; omega)]
          rw [List.getElem?_set_self (by omega)]
        · rw [if_neg hip]
          by_cases hlt : i < t.nodes.length
          · rw [List.getElem?_append_left (by simp; omega)]
            rw [List.getElem?_set_ne (by omega)]
          · rw [List.getElem?_eq_none (by simp; omega),
                List.getElem?_eq_none (by omega)]

@[simp] lemma NodeId.id_mk (n : Nat) : NodeId.id ⟨n⟩ = n := rfl

@[simp] lemma INode.insert_value (n : INode T) (c : NodeId) :
    (n.insert c).value = n.value := rfl

@[simp] lemma INode.insert_parent (n : INode T) (c : NodeId) :
    (n.insert c).parent = n.parent := rfl

@[simp] lemma INode.insert_children (n : INode T) (c : NodeId) :
    (n.insert c).children = n.children ++ [c] := rfl

@[simp] lemma INode.new_value (v : T) (p : Option NodeId) :
    (INode.new v p).value = v := rfl

@[simp] lemma INode.new_parent (v : T) (p : Option NodeId) :
    (INode.new v p).parent = p := rfl

@[simp] lemma INode.new_children (v : T) (p : Option NodeId) :
    (INode.new v p).children = [] := rfl

/-- Replacing one list entry replaces its contribution to the sum of a
mapped function, stated additively. -/
lemma sum_map_set {α : Type} (f : α → Nat) :
    ∀ (l : List α) (i : Nat) (a : α) (hi : i < l.length),
      ((l.set i a).map f).sum + f l[i] = (l.map f).sum + f a := by
  intro l
  induction l with
  | nil =>
    intro i a hi
    simp at hi
  | cons x xs ih =>
    intro i a hi
    cases i with
    | zero => simp; omega
    | succ k =>
      have hk : k < xs.length := by simpa using hi
      have := ih k a hk
      simp only [List.set_cons_succ, List.map_cons, List.sum_cons,
        List.getElem_cons_succ]
      omega

/-- Effect of a successful non-empty `add_node` on the total occurrence count
of each index among children lists: exactly the fresh index gains one
occurrence. -/
lemma childCount_add_node {t t1 : ITree T} {p nid : NodeId} {v : T}
    (hne : t.nodes ≠ []) (hstep : t.add_node p v = some (t1, nid)) (c : Nat) :
    t1.childCount c =
      t.childCount c + (if c = t.nodes.length then 1 else 0) := by
  rcases add_node_some_cases hstep with ⟨he, _⟩ | ⟨hp, ht1, _⟩
  · exact absurd he hne
  · subst ht1
    have hset := sum_map_set
      (fun n : INode T => (n.children.map NodeId.id).count c)
      t.nodes p.id ((t.nodes.get ⟨p.id, hp⟩).insert ⟨t.nodes.length⟩) hp
    simp only [INode.insert_children, List.map_append, List.count_append,
      List.map_cons, List.map_nil, NodeId.id_mk, List.count_singleton,
      List.get_eq_getElem] at hset
    unfold ITree.childCount
    simp only [List.map_append, List.sum_append, List.map_cons, List.map_nil,
      List.sum_cons, List.sum_nil, INode.new_children, List.count_nil,
      List.get_eq_getElem]
    by_cases hc : c = t.nodes.length
    · subst hc
      simp only [if_pos rfl, beq_self_eq_true, if_true] at hset ⊢
      omega
    · have hbeq : (t.nodes.length == c) = false := by
        simp [Nat.beq_eq_true_eq]
        omega
      rw [if_neg hc]
      rw [hbeq] at hset
      simp only [Bool.false_eq_true, if_false, Nat.add_zero] at hset
      omega

/-- From `t.get p = some old`, extract the index bound and the `List.get`
form of the lookup. -/
lemma get_some_elim {t : ITree T} {p : NodeId} {old : INode T}
    (hold : t.get p = some old) :
    ∃ hp : p.id < t.nodes.length, t.nodes.get ⟨p.id, hp⟩ = old := by
  rcases List.getElem?_eq_some_iff.mp hold with ⟨hp, heq⟩
  exact ⟨hp, by rw [List.get_eq_getElem]; exact heq⟩

/-- Turn an optional lookup result into a `List.get` equation at any proof of
the bound. -/
lemma get_of_some {α : Type} {l : List α} {i : Nat} {a : α}
    (h : l[i]? = some a) (hi : i < l.length) : l.get ⟨i, hi⟩ = a := by
  rw [List.get_eq_getElem]
  have hx := List.getElem?_eq_getElem hi
  rw [h] at hx
  injection hx with hx
  exact hx.symm

/-- A successful `add_node` never shrinks the tree and preserves the value
and parent fields of every existing node. -/
lemma add_node_stable {t t1 : ITree T} {p nid : NodeId} {v : T}
    (hstep : t.add_node p v = some (t1, nid)) :
    t.nodes.length ≤ t1.nodes.length ∧
    ∀ (i : Nat) (n : INode T), t.nodes[i]? = some n →
      ∃ m, t1.nodes[i]? = some m ∧ m.value = n.value ∧ m.parent = n.parent := by
  by_cases hne : t.nodes = []
  · constructor
    · rw [hne]
      simp
    · intro i n hn
      rw [hne] at hn
      simp at hn
  · obtain ⟨hp, _, hlen, _⟩ := add_node_get_eq hne hstep 0
    constructor
    · omega
    · intro i n hn
      obtain ⟨hi, hieq⟩ := List.getElem?_eq_some_iff.mp hn
      obtain ⟨_, _, _, hget⟩ := add_node_get_eq hne hstep i
      by_cases hip : i = p.id
      · subst hip
        refine ⟨(t.nodes.get ⟨p.id, hp⟩).insert ⟨t.nodes.length⟩, ?_, ?_, ?_⟩
        · rw [hget, if_neg (by omega), if_pos rfl]
        · simp only [INode.insert_value, List.get_eq_getElem]
          rw [hieq]
        · simp only [INode.insert_parent, List.get_eq_getElem]
          rw [hieq]
      · exact ⟨n, by rw [hget, if_neg (by omega), if_neg hip]; exact hn, rfl, rfl⟩

/-- A successful run of `add_node` calls never shrinks the tree and preserves
the value and parent fields of every existing node. -/
lemma runOps_stable :
    ∀ (ops : List (NodeId × T)) {t t' : ITree T}, t.runOps ops = some t' →
      t.nodes.length ≤ t'.nodes.length ∧
      ∀ (i : Nat) (n : INode T), t.nodes[i]? = some n →
        ∃ m, t'.nodes[i]? = some m ∧ m.value = n.value ∧ m.parent = n.parent := by
  intro ops
  induction ops with
  | nil =>
    intro t t' h
    simp only [ITree.runOps, Option.some.injEq] at h
    subst h
    exact ⟨Nat.le_refl _, fun i n hn => ⟨n, hn, rfl, rfl⟩⟩
  | cons op ops ih =>
    intro t t' h
    simp only [ITree.runOps] at h
    cases hstep : t.add_node op.1 op.2 with
    | none => rw [hstep] at h; exact absurd h (by simp)
    | some pr =>
      obtain ⟨t1, nid⟩ := pr
      rw [hstep] at h
      obtain ⟨hlen1, hst1⟩ := add_node_stable hstep
      obtain ⟨hlen2, hst2⟩ := ih h
      refine ⟨Nat.le_trans hlen1 hlen2, ?_⟩
      intro i n hn
      obtain ⟨m1, hm1, hv1, hp1⟩ := hst1 i n hn
      obtain ⟨m2, hm2, hv2, hp2⟩ := hst2 i m1 hm1
      exact ⟨m2, hm2, by rw [hv2, hv1], by rw [hp2, hp1]⟩

/-- The empty tree satisfies the invariant. -/
lemma inv_empty : (ITree.new : ITree T).Inv := by
  constructor
  · intro n hn
    simp [ITree.new] at hn
  · intro i n hn _
    simp [ITree.new] at hn
  · intro q n hn
    simp [ITree.new] at hn
  · intro i _ hi
    simp [ITree.new] at hi
  · intro i _
    rfl
  · rfl

/-- The invariant is preserved by every successful `add_node` call. -/
lemma inv_add_node {t t1 : ITree T} {p nid : NodeId} {v : T}
    (hinv : t.Inv) (hstep : t.add_node p v = some (t1, nid)) : t1.Inv := by
  by_cases hne : t.nodes = []
  · rw [add_node_empty_eq t p v hne] at hstep
    injection hstep with h1
    have ht1 : t1 = ⟨[INode.new v none]⟩ := (congrArg Prod.fst h1).symm
    subst ht1
    constructor
    · intro n hn
      simp at hn
      rw [← hn]
      rfl
    · intro i n hn hi
      obtain ⟨hlen, _⟩ := List.getElem?_eq_some_iff.mp hn
      simp at hlen
      omega
    · intro q n hn c hc
      obtain ⟨hlen, heq⟩ := List.getElem?_eq_some_iff.mp hn
      simp at hlen
      subst hlen
      simp at heq
      rw [← heq] at hc
      simp at hc
    · intro i h0 hi
      simp at hi
      omega
    · intro i _
      simp [ITree.childCount, INode.new]
    · simp [ITree.childCount, INode.new]
  · obtain ⟨hp, hnid, hlen, _⟩ := add_node_get_eq hne hstep 0
    have hget : ∀ i : Nat, t1.nodes[i]? =
        (if i = t.nodes.length then some (INode.new v (some p))
         else if i = p.id then
           some ((t.nodes.get ⟨p.id, hp⟩).insert ⟨t.nodes.length⟩)
         else t.nodes[i]?) := by
      intro i
      obtain ⟨_, _, _, h4⟩ := add_node_get_eq hne hstep i
      exact h4
    have hLpos : 0 < t.nodes.length := List.length_pos.mpr hne
    have hcount := fun c => childCount_add_node hne hstep c
    constructor
    · intro n hn
      rw [hget 0, if_neg (by omega)] at hn
      by_cases h0p : 0 = p.id
      · rw [if_pos h0p] at hn
        injection hn with hn
        rw [← hn]
        simp only [INode.insert_parent]
        exact hinv.root_parent _ (by rw [h0p]; exact List.getElem?_eq_getElem hp)
      · rw [if_neg h0p] at hn
        exact hinv.root_parent n hn
    · intro i n hn hi
      rw [hget i] at hn
      by_cases hiL : i = t.nodes.length
      · rw [if_pos hiL] at hn
        injection hn with hn
        refine ⟨p.id, by omega, ?_⟩
        rw [← hn]
        rfl
      · rw [if_neg hiL] at hn
        by_cases hip : i = p.id
        · rw [if_pos hip] at hn
          injection hn with hn
          rcases hinv.parent_lt i _ (by rw [hip]; exact List.getElem?_eq_getElem hp) hi
            with ⟨j, hj, hpar⟩
          refine ⟨j, hj, ?_⟩
          rw [← hn]
          simp only [INode.insert_parent, List.get_eq_getElem]
          exact hpar
        · rw [if_neg hip] at hn
          exact hinv.parent_lt i n hn hi
    · intro q n hn c hc
      rw [hget q] at hn
      by_cases hqL : q = t.nodes.length
      · rw [if_pos hqL] at hn
        injection hn with hn
        rw [← hn] at hc
        simp at hc
      · rw [if_neg hqL] at hn
        by_cases hqp : q = p.id
        · rw [if_pos hqp] at hn
          injection hn with hn
          rw [← hn] at hc
          simp only [INode.insert_children, List.mem_append,
            List.mem_singleton] at hc
          rcases hc with hc | hc
          · have hold : t.nodes[q]? = some (t.nodes.get ⟨p.id, hp⟩) := by
              rw [hqp]
              exact List.getElem?_eq_getElem hp
            obtain ⟨hlt, m, hm, hmp⟩ := hinv.child_link q _ hold c hc
            obtain ⟨hcb, _⟩ := List.getElem?_eq_some_iff.mp hm
            refine ⟨hlt, m, ?_, hmp⟩
            rw [hget c.id, if_neg (by omega), if_neg (by omega)]
            exact hm
          · subst hc
            refine ⟨by simp; omega, INode.new v (some p), ?_, ?_⟩
            · rw [hget, NodeId.id_mk, if_pos rfl]
            · rw [hqp]
              rfl
        · rw [if_neg hqp] at hn
          obtain ⟨hlt, m, hm, hmp⟩ := hinv.child_link q n hn c hc
          obtain ⟨hcb, hceq⟩ := List.getElem?_eq_some_iff.mp hm
          refine ⟨hlt, ?_⟩
          by_cases hcp : c.id = p.id
          · refine ⟨(t.nodes.get ⟨p.id, hp⟩).insert ⟨t.nodes.length⟩, ?_, ?_⟩
            · rw [hget c.id, if_neg (by omega), if_pos hcp]
            · have hm2 : t.nodes[p.id]? = some m := by
                rw [← hcp]
                exact hm
              have hm3 : t.nodes.get ⟨p.id, hp⟩ = m := by
                rw [List.get_eq_getElem]
                have hx := List.getElem?_eq_getElem hp
                rw [hm2] at hx
                injection hx with hx
                exact hx.symm
              simp only [INode.insert_parent]
              rw [hm3]
              exact hmp
          · refine ⟨m, ?_, hmp⟩
            rw [hget c.id, if_neg (by omega), if_neg hcp]
            exact hm
    · intro i h0 hi
      rw [hlen] at hi
      rw [hcount i]
      by_cases hiL : i = t.nodes.length
      · rw [if_pos hiL, hiL, hinv.count_zero t.nodes.length (Nat.le_refl _)]
      · rw [if_neg hiL, hinv.count_one i h0 (by omega)]
    · intro i hiL
      rw [hcount i, if_neg (by omega), hinv.count_zero i (by omega)]
    · rw [hcount 0, if_neg (by omega), hinv.count_root]

/-- The invariant is preserved by every successful run. -/
lemma inv_runOps :
    ∀ (ops : List (NodeId × T)) {t t' : ITree T},
      t.Inv → t.runOps ops = some t' → t'.Inv := by
  intro ops
  induction ops with
  | nil =>
    intro t t' hinv h
    simp only [ITree.runOps, Option.some.injEq] at h
    subst h
    exact hinv
  | cons op ops ih =>
    intro t t' hinv h
    simp only [ITree.runOps] at h
    cases hstep : t.add_node op.1 op.2 with
    | none => rw [hstep] at h; exact absurd h (by simp)
    | some pr =>
      obtain ⟨t1, nid⟩ := pr
      rw [hstep] at h
      exact ih (inv_add_node hinv hstep) h

/-- Every tree reachable from `new` by a successful run satisfies the
invariant. -/
lemma inv_reachable {ops : List (NodeId × T)} {t : ITree T}
    (h : (ITree.new : ITree T).runOps ops = some t) : t.Inv :=
  inv_runOps ops inv_empty h

/-- Under the invariant, iterating the parent relation from any node reaches
the root. -/
lemma inv_reaches_root {t : ITree T} (hinv : t.Inv) :
    ∀ i, i < t.nodes.length → Relation.ReflTransGen t.parentRel i 0 := by
  intro i
  induction i using Nat.strong_induction_on with
  | _ i ih =>
    intro hi
    rcases Nat.eq_zero_or_pos i with h0 | h0
    · subst h0
      exact Relation.ReflTransGen.refl
    · rcases hinv.parent_lt i _ (List.getElem?_eq_getElem hi) h0 with ⟨j, hj, hpar⟩
      have step : t.parentRel i j :=
        ⟨t.nodes[i], List.getElem?_eq_getElem hi, hpar⟩
      exact Relation.ReflTransGen.head step (ih j hj (Nat.lt_trans hj hi))

lemma NodeId.eq_iff {a b : NodeId} : a = b ↔ a.id = b.id := by
  cases a
  cases b
  simp

/-- Running calls from a non-empty tree appends to node `q`'s children list
exactly the ids of the calls whose parent argument is `q`, in call order. -/
lemma runOps_children (ops : List (NodeId × T)) :
    ∀ (t t' : ITree T), t.nodes ≠ [] → t.runOps ops = some t' →
      ∀ q : NodeId, t'.childrenAt q =
        t.childrenAt q ++ pendingChildren t.nodes.length ops q := by
  induction ops with
  | nil =>
    intro t t' hne h q
    simp only [ITree.runOps, Option.some.injEq] at h
    subst h
    rw [pendingChildren, List.append_nil]
  | cons op ops ih =>
    intro t t' hne h q
    simp only [ITree.runOps] at h
    cases hstep : t.add_node op.1 op.2 with
    | none => rw [hstep] at h; exact absurd h (by simp)
    | some pr =>
      obtain ⟨t1, nid⟩ := pr
      rw [hstep] at h
      obtain ⟨hp, hnid, hlen, _⟩ := add_node_get_eq hne hstep 0
      have hget : ∀ i : Nat, t1.nodes[i]? =
          (if i = t.nodes.length then some (INode.new op.2 (some op.1))
           else if i = op.1.id then
             some ((t.nodes.get ⟨op.1.id, hp⟩).insert ⟨t.nodes.length⟩)
           else t.nodes[i]?) := by
        intro i
        obtain ⟨_, _, _, h4⟩ := add_node_get_eq hne hstep i
        exact h4
      have hne1 : t1.nodes ≠ [] := by
        intro hcontra
        have hc := congrArg List.length hcontra
        rw [hlen] at hc
        simp at hc
      have hmain := ih t1 t' hne1 h q
      rw [hlen] at hmain
      rw [hmain]
      simp only [pendingChildren]
      by_cases hq : op.1 = q
      · rw [if_pos hq]
        have hqid : q.id = op.1.id := by rw [← hq]
        have hstep1 : t1.childrenAt q =
            t.childrenAt q ++ [⟨t.nodes.length⟩] := by
          unfold ITree.childrenAt
          rw [hget q.id, if_neg (by omega), if_pos hqid]
          have htq : t.nodes[q.id]? = some (t.nodes.get ⟨op.1.id, hp⟩) := by
            rw [hqid, List.get_eq_getElem]
            exact List.getElem?_eq_getElem hp
          rw [htq]
          simp
        rw [hstep1]
        simp [List.append_assoc]
      · rw [if_neg hq]
        have hqid : q.id ≠ op.1.id := by
          intro hcontra
          exact hq (NodeId.eq_iff.mpr hcontra.symm)
        have hstep1 : t1.childrenAt q = t.childrenAt q := by
          unfold ITree.childrenAt
          rw [hget q.id]
          by_cases hqL : q.id = t.nodes.length
          · rw [if_pos hqL, hqL]
            rw [List.getElem?_eq_none (Nat.le_refl _)]
            rfl
          · rw [if_neg hqL, if_neg hqid]
        rw [hstep1]

/-- A successful trace is in particular a successful run to the same tree. -/
lemma runTrace_to_runOps (ops : List (NodeId × T)) :
    ∀ (t t' : ITree T) (ids : List NodeId),
      t.runTrace ops = some (t', ids) → t.runOps ops = some t' := by
  induction ops with
  | nil =>
    intro t t' ids h
    simp only [ITree.runTrace, Option.some.injEq, Prod.mk.injEq] at h
    simp only [ITree.runOps, Option.some.injEq]
    exact h.1
  | cons op ops ih =>
    intro t t' ids h
    simp only [ITree.runTrace] at h
    cases hstep : t.add_node op.1 op.2 with
    | none => rw [hstep] at h; exact absurd h (by simp)
    | some pr =>
      obtain ⟨t1, nid⟩ := pr
      rw [hstep] at h
      have h2 : (match t1.runTrace ops with
          | some (t2, ids2) => some (t2, nid :: ids2)
          | none => none) = some (t', ids) := h
      cases htr : t1.runTrace ops with
      | none => rw [htr] at h2; exact absurd h2 (by simp)
      | some pr2 =>
        obtain ⟨t2, ids2⟩ := pr2
        rw [htr] at h2
        simp only [Option.some.injEq, Prod.mk.injEq] at h2
        obtain ⟨h3, _⟩ := h2
        subst h3
        simp only [ITree.runOps, hstep]
        exact ih t1 t2 ids2 htr

/-- In a successful trace from a non-empty tree, filtering the call/id pairs
by parent argument `q` yields exactly the pending children of `q`. -/
lemma runTrace_filterMap (ops : List (NodeId × T)) :
    ∀ (t t' : ITree T) (ids : List NodeId) (q : NodeId), t.nodes ≠ [] →
      t.runTrace ops = some (t', ids) →
      (ops.zip ids).filterMap
          (fun x => if x.1.1 = q then some x.2 else none) =
        pendingChildren t.nodes.length ops q := by
  induction ops with
  | nil =>
    intro t t' ids q hne h
    simp only [ITree.runTrace, Option.some.injEq, Prod.mk.injEq] at h
    obtain ⟨_, hids⟩ := h
    rw [← hids]
    rfl
  | cons op ops ih =>
    intro t t' ids q hne h
    simp only [ITree.runTrace] at h
    cases hstep : t.add_node op.1 op.2 with
    | none => rw [hstep] at h; exact absurd h (by simp)
    | some pr =>
      obtain ⟨t1, nid⟩ := pr
      rw [hstep] at h
      have h2 : (match t1.runTrace ops with
          | some (t2, ids2) => some (t2, nid :: ids2)
          | none => none) = some (t', ids) := h
      cases htr : t1.runTrace ops with
      | none => rw [htr] at h2; exact absurd h2 (by simp)
      | some pr2 =>
        obtain ⟨t2, ids2⟩ := pr2
        rw [htr] at h2
        simp only [Option.some.injEq, Prod.mk.injEq] at h2
        obtain ⟨h3, h4⟩ := h2
        subst h3
        rw [← h4]
        obtain ⟨hp, hnid, hlen, _⟩ := add_node_get_eq hne hstep 0
        have hne1 : t1.nodes ≠ [] := by
          intro hcontra
          have hc := congrArg List.length hcontra
          rw [hlen] at hc
          simp at hc
        have hrest := ih t1 t2 ids2 q hne1 htr
        rw [hlen] at hrest
        subst hnid
        simp only [List.zip_cons_cons, List.filterMap_cons, pendingChildren]
        by_cases hq : op.1 = q
        · rw [if_pos hq]
          simp only [if_pos hq]
          rw [hrest]
        · rw [if_neg hq]
          simp only [if_neg hq]
          rw [hrest]

/-! Claim theorems, in claim order, each with a witness instantiating its
hypotheses on a concrete tree. -/

/-- C1: on a non-empty tree with an in-range parent, `add_node` returns
`NodeId i` for `i` the old length; afterwards node `i` holds the new value,
parent `some parent_id` and no children, and the parent's children list is the
old one with `NodeId i` appended at the end. -/
theorem C1_add_node_nonempty_spec (t t' : ITree T) (p nid : NodeId) (v : T)
    (old : INode T) (hne : t.nodes ≠ []) (hold : t.get p = some old)
    (h : t.add_node p v = some (t', nid)) :
    nid = ⟨t.nodes.length⟩ ∧
    t'.nodes.length = t.nodes.length + 1 ∧
    t'.get ⟨t.nodes.length⟩ = some ⟨v, some p, []⟩ ∧
    t'.get p = some ⟨old.value, old.parent, old.children ++ [⟨t.nodes.length⟩]⟩ := by
  rcases get_some_elim hold with ⟨hp, hgetp⟩
  rcases add_node_get_eq hne h t.nodes.length with ⟨_, hnid, hlen, hnew⟩
  rcases add_node_get_eq hne h p.id with ⟨_, _, _, hpar⟩
  refine ⟨hnid, hlen, ?_, ?_⟩
  · rw [ITree.get, hnew, if_pos rfl]
    rfl
  · rw [ITree.get, hpar, if_neg (by omega), if_pos rfl, hgetp]
    rfl

/-- Witness for C1 at a one-node tree. -/
theorem C1_witness :
    (⟨[⟨0, none, []⟩]⟩ : ITree Nat).nodes ≠ [] ∧
    (⟨[⟨0, none, []⟩]⟩ : ITree Nat).get ⟨0⟩ = some ⟨0, none, []⟩ ∧
    (⟨[⟨0, none, []⟩]⟩ : ITree Nat).add_node ⟨0⟩ 5 =
      some (⟨[⟨0, none, [⟨1⟩]⟩, ⟨5, some ⟨0⟩, []⟩]⟩, ⟨1⟩) ∧
    ((⟨1⟩ : NodeId) = ⟨1⟩ ∧
     (⟨[⟨0, none, [⟨1⟩]⟩, ⟨5, some ⟨0⟩, []⟩]⟩ : ITree Nat).nodes.length = 1 + 1 ∧
     (⟨[⟨0, none, [⟨1⟩]⟩, ⟨5, some ⟨0⟩, []⟩]⟩ : ITree Nat).get ⟨1⟩ =
       some ⟨5, some ⟨0⟩, []⟩ ∧
     (⟨[⟨0, none, [⟨1⟩]⟩, ⟨5, some ⟨0⟩, []⟩]⟩ : ITree Nat).get ⟨0⟩ =
       some ⟨0, none, [] ++ [⟨1⟩]⟩) :=
  ⟨by decide, by decide, by decide,
   C1_add_node_nonempty_spec (⟨[⟨0, none, []⟩]⟩ : ITree Nat)
     (⟨[⟨0, none, [⟨1⟩]⟩, ⟨5, some ⟨0⟩, []⟩]⟩ : ITree Nat) ⟨0⟩ ⟨1⟩ 5
     ⟨0, none, []⟩ (by decide) (by decide) (by decide)⟩

/-- C2: on the empty tree, `add_node` ignores the parent argument, creates a
single node with the given value, no parent and no children, and returns
`NodeId 0`. -/
theorem C2_add_node_empty_spec (t : ITree T) (p : NodeId) (v : T)
    (h : t.nodes = []) :
    t.add_node p v = some (⟨[⟨v, none, []⟩]⟩, ⟨0⟩) :=
  add_node_empty_eq t p v h

/-- Witness for C2 with an arbitrary parent index. -/
theorem C2_witness :
    (ITree.new : ITree Nat).nodes = [] ∧
    (ITree.new : ITree Nat).add_node ⟨42⟩ 7 = some (⟨[⟨7, none, []⟩]⟩, ⟨0⟩) :=
  ⟨rfl, C2_add_node_empty_spec ITree.new ⟨42⟩ 7 rfl⟩

/-- C5: on a non-empty tree, `add_node` with an out-of-range parent index does
not return normally (the Rust code panics in `index_mut` before any mutation;
in the model the pure state is unchanged and the result is `none`). -/
theorem C5_add_node_out_of_range (t : ITree T) (p : NodeId) (v : T)
    (hne : t.nodes ≠ []) (hp : t.nodes.length ≤ p.id) :
    t.add_node p v = none :=
  add_node_oob_eq t p v hne hp

/-- Witness for C5: a one-node tree with parent index 999. -/
theorem C5_witness :
    (⟨[⟨3, none, []⟩]⟩ : ITree Nat).nodes ≠ [] ∧
    (⟨[⟨3, none, []⟩]⟩ : ITree Nat).nodes.length ≤ (999 : Nat) ∧
    (⟨[⟨3, none, []⟩]⟩ : ITree Nat).add_node ⟨999⟩ 4 = none :=
  ⟨by decide, by decide,
   C5_add_node_out_of_range _ ⟨999⟩ 4 (by decide) (by decide)⟩

/-- C7: `get` returns the node at the encoded index when in range and `none`
otherwise; `root` coincides with `get ⟨0⟩`; on a fresh tree both are `none`. -/
theorem C7_get_root_spec (t : ITree T) (nid : NodeId) :
    (t.get nid = if h : nid.id < t.nodes.length
                 then some (t.nodes.get ⟨nid.id, h⟩) else none) ∧
    t.root = t.get ⟨0⟩ ∧
    (ITree.new : ITree T).root = none ∧
    (ITree.new : ITree T).get nid = none := by
  refine ⟨?_, rfl, rfl, rfl⟩
  by_cases h : nid.id < t.nodes.length
  · rw [dif_pos h, ITree.get, List.get_eq_getElem]
    exact List.getElem?_eq_getElem h
  · rw [dif_neg h, ITree.get]
    exact List.getElem?_eq_none (Nat.le_of_not_lt h)

/-- C3: in every tree reachable from `new` by non-panicking `add_node` calls,
the node at index 0 has no parent, every node at index `i > 0` has a parent
with a strictly smaller index, and no node is its own parent. -/
theorem C3_parent_structure (ops : List (NodeId × T)) (t : ITree T)
    (h : (ITree.new : ITree T).runOps ops = some t) (i : Nat) (n : INode T)
    (hn : t.get ⟨i⟩ = some n) :
    (i = 0 → n.parent = none) ∧
    (0 < i → ∃ j, j < i ∧ n.parent = some ⟨j⟩) ∧
    n.parent ≠ some ⟨i⟩ := by
  have hinv := inv_reachable h
  refine ⟨?_, hinv.parent_lt i n hn, ?_⟩
  · intro h0
    subst h0
    exact hinv.root_parent n hn
  · intro hcontra
    rcases Nat.eq_zero_or_pos i with h0 | h0
    · subst h0
      rw [hinv.root_parent n hn] at hcontra
      exact Option.noConfusion hcontra
    · rcases hinv.parent_lt i n hn h0 with ⟨j, hj, hpar⟩
      rw [hpar] at hcontra
      injection hcontra with h1
      have : j = i := congrArg NodeId.id h1
      omega

/-- Witness for C3 on the four-node tree of the repository's own test. -/
theorem C3_witness :
    (ITree.new : ITree Nat).runOps [(⟨0⟩, 0), (⟨0⟩, 1), (⟨0⟩, 2), (⟨2⟩, 3)] =
      some ⟨[⟨0, none, [⟨1⟩, ⟨2⟩]⟩, ⟨1, some ⟨0⟩, []⟩,
             ⟨2, some ⟨0⟩, [⟨3⟩]⟩, ⟨3, some ⟨2⟩, []⟩]⟩ ∧
    (⟨[⟨0, none, [⟨1⟩, ⟨2⟩]⟩, ⟨1, some ⟨0⟩, []⟩,
       ⟨2, some ⟨0⟩, [⟨3⟩]⟩, ⟨3, some ⟨2⟩, []⟩]⟩ : ITree Nat).get ⟨3⟩ =
      some ⟨3, some ⟨2⟩, []⟩ ∧
    ((3 = 0 → (some (⟨2⟩ : NodeId) : Option NodeId) = none) ∧
     (0 < 3 → ∃ j, j < 3 ∧ (some (⟨2⟩ : NodeId) : Option NodeId) = some ⟨j⟩) ∧
     (some (⟨2⟩ : NodeId) : Option NodeId) ≠ some ⟨3⟩) :=
  ⟨by decide, by decide,
   C3_parent_structure [(⟨0⟩, 0), (⟨0⟩, 1), (⟨0⟩, 2), (⟨2⟩, 3)]
     ⟨[⟨0, none, [⟨1⟩, ⟨2⟩]⟩, ⟨1, some ⟨0⟩, []⟩,
       ⟨2, some ⟨0⟩, [⟨3⟩]⟩, ⟨3, some ⟨2⟩, []⟩]⟩
     (by decide) 3 ⟨3, some ⟨2⟩, []⟩ (by decide)⟩

/-- C4: a successful `add_node` leaves the value and parent of every existing
node unchanged and leaves every children list unchanged except the parent's,
which gets exactly the new id appended; the value (and parent) of an existing
node is also unchanged by any number of later insertions. -/
theorem C4_add_node_frame (t t' t'' : ITree T) (p nid idn : NodeId) (v : T)
    (n m : INode T) (ops : List (NodeId × T))
    (hp : p.id < t.nodes.length)
    (hn : t.get idn = some n)
    (h : t.add_node p v = some (t', nid))
    (hrun : t'.runOps ops = some t'')
    (hm : t''.get idn = some m) :
    t'.get idn = some ⟨n.value, n.parent,
      if idn = p then n.children ++ [nid] else n.children⟩ ∧
    m.value = n.value ∧ m.parent = n.parent := by
  have hne : t.nodes ≠ [] := by
    intro he
    rw [he] at hp
    simp at hp
  have hn' : t.nodes[idn.id]? = some n := hn
  obtain ⟨hi, hieq⟩ := List.getElem?_eq_some_iff.mp hn'
  obtain ⟨hp2, hnid, hlen, hget⟩ := add_node_get_eq hne h idn.id
  have hfirst : t'.get idn = some ⟨n.value, n.parent,
      if idn = p then n.children ++ [nid] else n.children⟩ := by
    show t'.nodes[idn.id]? = _
    rw [hget, if_neg (by omega)]
    by_cases hip : idn = p
    · have hid : idn.id = p.id := congrArg NodeId.id hip
      rw [if_pos hid, if_pos hip, hnid]
      rw [hid] at hn'
      rw [get_of_some hn' hp2]
      rfl
    · have hid : idn.id ≠ p.id := by
        intro hcontra
        cases idn
        cases p
        simp only at hcontra
        subst hcontra
        exact hip rfl
      rw [if_neg hid, if_neg hip]
      exact hn
  refine ⟨hfirst, ?_⟩
  have hfirst' : t'.nodes[idn.id]? = some (⟨n.value, n.parent,
      if idn = p then n.children ++ [nid] else n.children⟩ : INode T) := hfirst
  obtain ⟨_, hst⟩ := runOps_stable ops hrun
  obtain ⟨m2, hm2, hv2, hp2'⟩ := hst idn.id _ hfirst'
  have hm' : t''.nodes[idn.id]? = some m := hm
  rw [hm'] at hm2
  injection hm2 with hm2
  rw [← hm2] at hv2 hp2'
  exact ⟨hv2, hp2'⟩

/-- Witness for C4: insert under the root, then one more insertion elsewhere;
the root's stored attributes survive, its children gained exactly the new id. -/
theorem C4_witness :
    (0 : Nat) < (⟨[⟨0, none, []⟩]⟩ : ITree Nat).nodes.length ∧
    (⟨[⟨0, none, []⟩]⟩ : ITree Nat).get ⟨0⟩ = some ⟨0, none, []⟩ ∧
    (⟨[⟨0, none, []⟩]⟩ : ITree Nat).add_node ⟨0⟩ 1 =
      some (⟨[⟨0, none, [⟨1⟩]⟩, ⟨1, some ⟨0⟩, []⟩]⟩, ⟨1⟩) ∧
    (⟨[⟨0, none, [⟨1⟩]⟩, ⟨1, some ⟨0⟩, []⟩]⟩ : ITree Nat).runOps [(⟨1⟩, 2)] =
      some ⟨[⟨0, none, [⟨1⟩]⟩, ⟨1, some ⟨0⟩, [⟨2⟩]⟩, ⟨2, some ⟨1⟩, []⟩]⟩ ∧
    (⟨[⟨0, none, [⟨1⟩]⟩, ⟨1, some ⟨0⟩, [⟨2⟩]⟩, ⟨2, some ⟨1⟩, []⟩]⟩ :
        ITree Nat).get ⟨0⟩ = some ⟨0, none, [⟨1⟩]⟩ ∧
    ((⟨[⟨0, none, [⟨1⟩]⟩, ⟨1, some ⟨0⟩, []⟩]⟩ : ITree Nat).get ⟨0⟩ =
       some ⟨0, none,
         if (⟨0⟩ : NodeId) = ⟨0⟩ then ([] : List NodeId) ++ [⟨1⟩] else []⟩ ∧
     (0 : Nat) = 0 ∧ (none : Option NodeId) = none) :=
  ⟨by decide, by decide, by decide, by decide, by decide,
   C4_add_node_frame (⟨[⟨0, none, []⟩]⟩ : ITree Nat)
     (⟨[⟨0, none, [⟨1⟩]⟩, ⟨1, some ⟨0⟩, []⟩]⟩ : ITree Nat)
     (⟨[⟨0, none, [⟨1⟩]⟩, ⟨1, some ⟨0⟩, [⟨2⟩]⟩, ⟨2, some ⟨1⟩, []⟩]⟩ : ITree Nat)
     ⟨0⟩ ⟨1⟩ ⟨0⟩ 1 ⟨0, none, []⟩ ⟨0, none, [⟨1⟩]⟩ [(⟨1⟩, 2)]
     (by decide) (by decide) (by decide) (by decide) (by decide)⟩

/-- C6: after a successful trace from the empty tree, the children list of
any node `p` equals, in order, the ids returned by exactly those calls whose
parent argument was `p`, excluding the first call (whose parent argument is
discarded). -/
theorem C6_children_insertion_order (ops : List (NodeId × T)) (t : ITree T)
    (ids : List NodeId) (p : NodeId) (n : INode T)
    (h : (ITree.new : ITree T).runTrace ops = some (t, ids))
    (hn : t.get p = some n) :
    n.children = ((ops.zip ids).drop 1).filterMap
      (fun x => if x.1.1 = p then some x.2 else none) := by
  cases ops with
  | nil =>
    simp only [ITree.runTrace, Option.some.injEq, Prod.mk.injEq] at h
    obtain ⟨h1, _⟩ := h
    rw [← h1] at hn
    simp [ITree.get, ITree.new] at hn
  | cons op ops =>
    simp only [ITree.runTrace] at h
    cases hstep : (ITree.new : ITree T).add_node op.1 op.2 with
    | none =>
      rw [add_node_empty_eq ITree.new op.1 op.2 rfl] at hstep
      exact absurd hstep (by simp)
    | some pr =>
      obtain ⟨t1, nid⟩ := pr
      rw [hstep] at h
      rw [add_node_empty_eq ITree.new op.1 op.2 rfl] at hstep
      injection hstep with hstep
      have ht1 : t1 = ⟨[INode.new op.2 none]⟩ := (congrArg Prod.fst hstep).symm
      have hnid : nid = ⟨0⟩ := (congrArg Prod.snd hstep).symm
      subst ht1
      subst hnid
      have h2 : (match (⟨[INode.new op.2 none]⟩ : ITree T).runTrace ops with
          | some (t2, ids2) => some (t2, (⟨0⟩ : NodeId) :: ids2)
          | none => none) = some (t, ids) := h
      cases htr : (⟨[INode.new op.2 none]⟩ : ITree T).runTrace ops with
      | none => rw [htr] at h2; exact absurd h2 (by simp)
      | some pr2 =>
        obtain ⟨t2, ids2⟩ := pr2
        rw [htr] at h2
        simp only [Option.some.injEq, Prod.mk.injEq] at h2
        obtain ⟨h3, h4⟩ := h2
        subst h3
        rw [← h4]
        simp only [List.zip_cons_cons, List.drop_succ_cons, List.drop_zero]
        have hne1 : (⟨[INode.new op.2 none]⟩ : ITree T).nodes ≠ [] := by simp
        have hrun := runTrace_to_runOps ops _ t2 ids2 htr
        have hch := runOps_children ops _ t2 hne1 hrun p
        have hfm := runTrace_filterMap ops _ t2 ids2 p hne1 htr
        rw [hfm]
        have hn' : t2.nodes[p.id]? = some n := hn
        have hchn : t2.childrenAt p = n.children := by
          unfold ITree.childrenAt
          rw [hn']
          rfl
        rw [← hchn, hch]
        have hroot : (⟨[INode.new op.2 none]⟩ : ITree T).childrenAt p = [] := by
          unfold ITree.childrenAt
          by_cases hp0 : p.id = 0
          · rw [hp0]
            rfl
          · rw [List.getElem?_eq_none (by simp; omega)]
            rfl
        rw [hroot]
        rfl

/-- Witness for C6 reproducing the repository's own test tree. -/
theorem C6_witness :
    (ITree.new : ITree Nat).runTrace [(⟨0⟩, 0), (⟨0⟩, 1), (⟨0⟩, 2), (⟨2⟩, 3)] =
      some (⟨[⟨0, none, [⟨1⟩, ⟨2⟩]⟩, ⟨1, some ⟨0⟩, []⟩,
              ⟨2, some ⟨0⟩, [⟨3⟩]⟩, ⟨3, some ⟨2⟩, []⟩]⟩,
            [⟨0⟩, ⟨1⟩, ⟨2⟩, ⟨3⟩]) ∧
    (⟨[⟨0, none, [⟨1⟩, ⟨2⟩]⟩, ⟨1, some ⟨0⟩, []⟩,
       ⟨2, some ⟨0⟩, [⟨3⟩]⟩, ⟨3, some ⟨2⟩, []⟩]⟩ : ITree Nat).get ⟨0⟩ =
      some ⟨0, none, [⟨1⟩, ⟨2⟩]⟩ ∧
    [(⟨1⟩ : NodeId), ⟨2⟩] =
      ((([((⟨0⟩ : NodeId), (0 : Nat)), (⟨0⟩, 1), (⟨0⟩, 2), (⟨2⟩, 3)]).zip
          [(⟨0⟩ : NodeId), ⟨1⟩, ⟨2⟩, ⟨3⟩]).drop 1).filterMap
        (fun x => if x.1.1 = ⟨0⟩ then some x.2 else none) :=
  ⟨by decide, by decide,
   C6_children_insertion_order [(⟨0⟩, 0), (⟨0⟩, 1), (⟨0⟩, 2), (⟨2⟩, 3)]
     ⟨[⟨0, none, [⟨1⟩, ⟨2⟩]⟩, ⟨1, some ⟨0⟩, []⟩,
       ⟨2, some ⟨0⟩, [⟨3⟩]⟩, ⟨3, some ⟨2⟩, []⟩]⟩
     [⟨0⟩, ⟨1⟩, ⟨2⟩, ⟨3⟩] ⟨0⟩ ⟨0, none, [⟨1⟩, ⟨2⟩]⟩
     (by decide) (by decide)⟩

/-- C8: an id returned by a successful `add_node` is present immediately
afterwards and stays present after any further successful run; the node
sequence never shrinks. -/
theorem C8_ids_stay_valid (t t' t'' : ITree T) (p nid : NodeId) (v : T)
    (ops : List (NodeId × T))
    (h : t.add_node p v = some (t', nid))
    (hrun : t'.runOps ops = some t'') :
    (t'.get nid).isSome = true ∧ (t''.get nid).isSome = true ∧
    t'.nodes.length ≤ t''.nodes.length := by
  have hv : ∃ n, t'.nodes[nid.id]? = some n := by
    by_cases hne : t.nodes = []
    · rw [add_node_empty_eq t p v hne] at h
      injection h with h1
      have ht' : t' = ⟨[INode.new v none]⟩ := (congrArg Prod.fst h1).symm
      have hnid : nid = ⟨0⟩ := (congrArg Prod.snd h1).symm
      subst ht'
      subst hnid
      exact ⟨INode.new v none, rfl⟩
    · obtain ⟨hp, hnid, hlen, hget⟩ := add_node_get_eq hne h nid.id
      subst hnid
      refine ⟨INode.new v (some p), ?_⟩
      rw [hget]
      simp
  obtain ⟨n, hn⟩ := hv
  obtain ⟨hlen, hst⟩ := runOps_stable ops hrun
  obtain ⟨m, hm, _, _⟩ := hst nid.id n hn
  refine ⟨?_, ?_, hlen⟩
  · show (t'.nodes[nid.id]?).isSome = true
    rw [hn]
    rfl
  · show (t''.nodes[nid.id]?).isSome = true
    rw [hm]
    rfl

/-- Witness for C8: create the root, then add one child; `NodeId 0` stays
present. -/
theorem C8_witness :
    (ITree.new : ITree Nat).add_node ⟨5⟩ 0 =
      some (⟨[⟨0, none, []⟩]⟩, ⟨0⟩) ∧
    (⟨[⟨0, none, []⟩]⟩ : ITree Nat).runOps [(⟨0⟩, 1)] =
      some ⟨[⟨0, none, [⟨1⟩]⟩, ⟨1, some ⟨0⟩, []⟩]⟩ ∧
    (((⟨[⟨0, none, []⟩]⟩ : ITree Nat).get ⟨0⟩).isSome = true ∧
     ((⟨[⟨0, none, [⟨1⟩]⟩, ⟨1, some ⟨0⟩, []⟩]⟩ : ITree Nat).get ⟨0⟩).isSome
       = true ∧
     (⟨[⟨0, none, []⟩]⟩ : ITree Nat).nodes.length ≤
       (⟨[⟨0, none, [⟨1⟩]⟩, ⟨1, some ⟨0⟩, []⟩]⟩ : ITree Nat).nodes.length) :=
  ⟨by decide, by decide,
   C8_ids_stay_valid ITree.new (⟨[⟨0, none, []⟩]⟩ : ITree Nat)
     (⟨[⟨0, none, [⟨1⟩]⟩, ⟨1, some ⟨0⟩, []⟩]⟩ : ITree Nat) ⟨5⟩ ⟨0⟩ 0
     [(⟨0⟩, 1)] (by decide) (by decide)⟩

/-- C9: in every reachable tree, every non-root index in range occurs exactly
once among all children lists, the root index occurs in none, and the parent
relation links every node back to the root at index 0. -/
theorem C9_unique_appearance (ops : List (NodeId × T)) (t : ITree T)
    (h : (ITree.new : ITree T).runOps ops = some t) (i : Nat)
    (h0 : 0 < i) (hi : i < t.nodes.length) :
    t.childCount i = 1 ∧ t.childCount 0 = 0 ∧
    Relation.ReflTransGen t.parentRel i 0 := by
  have hinv := inv_reachable h
  exact ⟨hinv.count_one i h0 hi, hinv.count_root, inv_reaches_root hinv i hi⟩

/-- Witness for C9 at index 3 of the test tree. -/
theorem C9_witness :
    (ITree.new : ITree Nat).runOps [(⟨0⟩, 0), (⟨0⟩, 1), (⟨0⟩, 2), (⟨2⟩, 3)] =
      some ⟨[⟨0, none, [⟨1⟩, ⟨2⟩]⟩, ⟨1, some ⟨0⟩, []⟩,
             ⟨2, some ⟨0⟩, [⟨3⟩]⟩, ⟨3, some ⟨2⟩, []⟩]⟩ ∧
    (0 : Nat) < 3 ∧
    (3 : Nat) < (⟨[⟨0, none, [⟨1⟩, ⟨2⟩]⟩, ⟨1, some ⟨0⟩, []⟩,
                   ⟨2, some ⟨0⟩, [⟨3⟩]⟩, ⟨3, some ⟨2⟩, []⟩]⟩ :
                    ITree Nat).nodes.length ∧
    ((⟨[⟨0, none, [⟨1⟩, ⟨2⟩]⟩, ⟨1, some ⟨0⟩, []⟩,
        ⟨2, some ⟨0⟩, [⟨3⟩]⟩, ⟨3, some ⟨2⟩, []⟩]⟩ : ITree Nat).childCount 3
       = 1 ∧
     (⟨[⟨0, none, [⟨1⟩, ⟨2⟩]⟩, ⟨1, some ⟨0⟩, []⟩,
        ⟨2, some ⟨0⟩, [⟨3⟩]⟩, ⟨3, some ⟨2⟩, []⟩]⟩ : ITree Nat).childCount 0
       = 0 ∧
     Relation.ReflTransGen
       (⟨[⟨0, none, [⟨1⟩, ⟨2⟩]⟩, ⟨1, some ⟨0⟩, []⟩,
          ⟨2, some ⟨0⟩, [⟨3⟩]⟩, ⟨3, some ⟨2⟩, []⟩]⟩ : ITree Nat).parentRel
       3 0) :=
  ⟨by decide, by decide, by decide,
   C9_unique_appearance [(⟨0⟩, 0), (⟨0⟩, 1), (⟨0⟩, 2), (⟨2⟩, 3)]
     ⟨[⟨0, none, [⟨1⟩, ⟨2⟩]⟩, ⟨1, some ⟨0⟩, []⟩,
       ⟨2, some ⟨0⟩, [⟨3⟩]⟩, ⟨3, some ⟨2⟩, []⟩]⟩
     (by decide) 3 (by decide) (by decide)⟩

/-- C10: in every reachable tree, every id stored in a parent field or a
children list is in range; a child id in node `p`'s list is greater than `p`
and its node's parent field points back to `p`. -/
theorem C10_stored_ids_wf (ops : List (NodeId × T)) (t : ITree T)
    (h : (ITree.new : ITree T).runOps ops = some t) (p : Nat) (n : INode T)
    (c : NodeId) (hn : t.get ⟨p⟩ = some n)
    (hc : c ∈ n.children ∨ n.parent = some c) :
    c.id < t.nodes.length ∧
    (c ∈ n.children → p < c.id ∧
      (t.get c).map INode.parent = some (some ⟨p⟩)) := by
  have hinv := inv_reachable h
  have hchild : c ∈ n.children → p < c.id ∧
      (t.get c).map INode.parent = some (some ⟨p⟩) ∧
      c.id < t.nodes.length := by
    intro hmem
    obtain ⟨hlt, m, hm, hmp⟩ := hinv.child_link p n hn c hmem
    obtain ⟨hcb, _⟩ := List.getElem?_eq_some_iff.mp hm
    refine ⟨hlt, ?_, hcb⟩
    show (t.nodes[c.id]?).map INode.parent = _
    rw [hm]
    simp [hmp]
  rcases hc with hmem | hpar
  · obtain ⟨hlt, hmap, hcb⟩ := hchild hmem
    exact ⟨hcb, fun _ => ⟨hlt, hmap⟩⟩
  · refine ⟨?_, fun hmem => ⟨(hchild hmem).1, (hchild hmem).2.1⟩⟩
    rcases Nat.eq_zero_or_pos p with h0 | h0
    · subst h0
      rw [hinv.root_parent n hn] at hpar
      exact Option.noConfusion hpar
    · obtain ⟨j, hj, hparj⟩ := hinv.parent_lt p n hn h0
      rw [hparj] at hpar
      injection hpar with h1
      have hpb : p < t.nodes.length :=
        (List.getElem?_eq_some_iff.mp (hn : t.nodes[p]? = some n)).1
      have hcj : c.id = j := by
        rw [← h1]
      omega

/-- Witness for C10 on the root's first child of the test tree. -/
theorem C10_witness :
    (ITree.new : ITree Nat).runOps [(⟨0⟩, 0), (⟨0⟩, 1), (⟨0⟩, 2), (⟨2⟩, 3)] =
      some ⟨[⟨0, none, [⟨1⟩, ⟨2⟩]⟩, ⟨1, some ⟨0⟩, []⟩,
             ⟨2, some ⟨0⟩, [⟨3⟩]⟩, ⟨3, some ⟨2⟩, []⟩]⟩ ∧
    (⟨[⟨0, none, [⟨1⟩, ⟨2⟩]⟩, ⟨1, some ⟨0⟩, []⟩,
       ⟨2, some ⟨0⟩, [⟨3⟩]⟩, ⟨3, some ⟨2⟩, []⟩]⟩ : ITree Nat).get ⟨0⟩ =
      some ⟨0, none, [⟨1⟩, ⟨2⟩]⟩ ∧
    ((⟨1⟩ : NodeId) ∈ [(⟨1⟩ : NodeId), ⟨2⟩] ∨
      (none : Option NodeId) = some ⟨1⟩) ∧
    ((⟨1⟩ : NodeId).id <
       (⟨[⟨0, none, [⟨1⟩, ⟨2⟩]⟩, ⟨1, some ⟨0⟩, []⟩,
          ⟨2, some ⟨0⟩, [⟨3⟩]⟩, ⟨3, some ⟨2⟩, []⟩]⟩ : ITree Nat).nodes.length ∧
     ((⟨1⟩ : NodeId) ∈ [(⟨1⟩ : NodeId), ⟨2⟩] → (0 : Nat) < (⟨1⟩ : NodeId).id ∧
       ((⟨[⟨0, none, [⟨1⟩, ⟨2⟩]⟩, ⟨1, some ⟨0⟩, []⟩,
           ⟨2, some ⟨0⟩, [⟨3⟩]⟩, ⟨3, some ⟨2⟩, []⟩]⟩ :
             ITree Nat).get ⟨1⟩).map INode.parent = some (some ⟨0⟩))) :=
  ⟨by decide, by decide, by decide,
   C10_stored_ids_wf [(⟨0⟩, 0), (⟨0⟩, 1), (⟨0⟩, 2), (⟨2⟩, 3)]
     ⟨[⟨0, none, [⟨1⟩, ⟨2⟩]⟩, ⟨1, some ⟨0⟩, []⟩,
       ⟨2, some ⟨0⟩, [⟨3⟩]⟩, ⟨3, some ⟨2⟩, []⟩]⟩
     (by decide) 0 ⟨0, none, [⟨1⟩, ⟨2⟩]⟩ ⟨1⟩ (by decide)
     (Or.inl (by decide))⟩

end Grove
